import Mathlib

/-!
Verification of the eo-learn core task library against its natural-language
specification.  The repository snapshot provides the test suite
(`src/core/eolearn/tests/test_core_tasks.py`) and the visualization module
(`src/core/eolearn/core/visualizations.py`); the core container and task
implementations (`eodata.py`, `core_tasks.py`) are not part of the snapshot,
so they are modelled from the specification, with the test suite pinning the
observable behaviour.

Payload arrays are modelled as flat row-major integer arrays with an explicit
shape.  Python object identity (aliasing of payload arrays between patches,
shallow-vs-deep copies) is modelled with an explicit heap: a patch binds each
feature key to a reference (a natural number), and a memory maps references to
array values.  Mutating an array "in place" is a write to the heap at a
reference; it is visible through every key, in every patch, bound to that
reference.
-/

/-- Closed enumeration of feature types of the patch container (spec section 3). -/
inductive FeatureType where
  | data
  | mask
  | data_timeless
  | mask_timeless
  | scalar
  | label
  | scalar_timeless
  | label_timeless
  | vector
  | vector_timeless
  | meta_info
  | bbox
  | timestamp
  deriving DecidableEq, Repr

/-- A feature key: a feature type together with a feature name. -/
abbrev FKey := FeatureType × String

/-- A multi-dimensional array: a shape and flat row-major data.  Vector and
metadata payloads are modelled uniformly as opaque array blobs, which the
claims never inspect. -/
structure NDArray where
  shape : List Nat
  data : List Int
  deriving DecidableEq, Repr

/-- Length of the last axis of a shape (the channel count); 0 for a rank-0 shape. -/
def lastDim (shape : List Nat) : Nat :=
  shape.getLastD 0

/-- Split a flat list into consecutive chunks of length `c` (row-major blocks). -/
def chunkList (c : Nat) (xs : List Int) : List (List Int) :=
  if h : c = 0 ∨ xs = [] then [] else xs.take c :: chunkList c (xs.drop c)
termination_by xs.length
decreasing_by
  simp only [not_or] at h
  have hx : xs.length ≠ 0 := fun hl => h.2 (List.eq_nil_of_length_eq_zero hl)
  simp [List.length_drop]
  omega

/-- Select the channels listed in `idx` from the last axis of `arr`,
preserving all leading axes (numpy `arr[..., idx]`). -/
def sliceLast (arr : NDArray) (idx : List Nat) : NDArray :=
  { shape := arr.shape.dropLast ++ [idx.length],
    data := ((chunkList (lastDim arr.shape) arr.data).map
      (fun ch => idx.map (fun i => ch.getD i 0))).flatten }

/-- Number of elements in one block below axis `a` of a row-major array. -/
def blockSize (shape : List Nat) (a : Nat) : Nat :=
  (shape.drop a).prod

/-- Concatenate arrays along axis `a` (numpy `concatenate`): each array is cut
into its row-major blocks below axis `a`, and corresponding blocks of the
inputs are joined in input order. -/
def concatenateAxis (arrs : List NDArray) (a : Nat) : NDArray :=
  match arrs with
  | [] => ⟨[], []⟩
  | x :: _ =>
    { shape := x.shape.set a (arrs.map (fun ar => ar.shape.getD a 0)).sum,
      data := (((arrs.map (fun ar => chunkList (blockSize ar.shape a) ar.data)).transpose).map
        List.flatten).flatten }

/-- Normalize a possibly negative axis against the number of axes. -/
def normAxis (ndim : Nat) (a : Int) : Nat :=
  if a < 0 then (ndim + a).toNat else a.toNat

/-- All shapes agree in rank and on every axis except axis `a`. -/
def shapesCompatible (shapes : List (List Nat)) (a : Nat) : Bool :=
  match shapes with
  | [] => true
  | s :: rest => rest.all (fun s2 => s2.length == s.length && s2.eraseIdx a == s.eraseIdx a)

/-- An array of the given shape filled uniformly with `v`. -/
def fillArray (s : List Nat) (v : Int) : NDArray :=
  ⟨s, List.replicate s.prod v⟩

/-- The heap of payload arrays: a fresh-reference counter and an association
list from references to array values. -/
structure Mem where
  next : Nat
  heap : List (Nat × NDArray)
  deriving DecidableEq, Repr

/-- Look a reference up in a heap association list (first match wins). -/
def heapLookup : List (Nat × NDArray) → Nat → NDArray
  | [], _ => ⟨[], []⟩
  | (k, v) :: rest, r => if k = r then v else heapLookup rest r

/-- Dereference a payload reference. -/
def Mem.lookupArr (m : Mem) (r : Nat) : NDArray :=
  heapLookup m.heap r

/-- Allocate a fresh reference holding `v`; returns the new memory and the reference. -/
def Mem.alloc (m : Mem) (v : NDArray) : Mem × Nat :=
  (⟨m.next + 1, (m.next, v) :: m.heap⟩, m.next)

/-- Overwrite the array held at reference `r` in place (numpy in-place mutation). -/
def Mem.write (m : Mem) (r : Nat) (v : NDArray) : Mem :=
  ⟨m.next, m.heap.map (fun e => if e.1 = r then (e.1, v) else e)⟩

/-- Whether the heap holds an entry for reference `r`. -/
def Mem.hasRef (m : Mem) (r : Nat) : Prop :=
  ∃ e ∈ m.heap, e.1 = r

instance (m : Mem) (r : Nat) : Decidable (m.hasRef r) :=
  List.decidableBEx _ m.heap

/-- Modelled from the spec: the EOPatch container of `eodata.py` (not included
under `src/`).  Spec section 3: for each non-singleton feature type an
insertion-ordered name-to-payload mapping, here kept as one association list
from feature keys to payload references, plus the bounding-box and timestamp
singleton slots. -/
structure EOPatch where
  feats : List (FKey × Nat)
  bboxVal : Option (Int × Int × Int × Int × Nat)
  timestamps : List Nat
  deriving DecidableEq, Repr

/-- Look a key up in an association list of features (first match wins). -/
def lookupAssoc : List (FKey × Nat) → FKey → Option Nat
  | [], _ => none
  | (k, r) :: rest, k2 => if k = k2 then some r else lookupAssoc rest k2

/-- Bind `k` to `r`, replacing an existing binding in place or appending a new one. -/
def setAssoc : List (FKey × Nat) → FKey → Nat → List (FKey × Nat)
  | [], k, r => [(k, r)]
  | (k0, r0) :: rest, k, r =>
    if k0 = k then (k0, r) :: rest else (k0, r0) :: setAssoc rest k r

/-- The reference bound to key `k` in patch `p`, if any. -/
def lookupF (p : EOPatch) (k : FKey) : Option Nat :=
  lookupAssoc p.feats k

/-- Modelled from the spec: assignment into a patch slot always replaces the
bound payload reference for that key (spec section 3); `AddFeatureTask`
silently replaces an existing key (spec section 4.3). -/
def addF (p : EOPatch) (k : FKey) (r : Nat) : EOPatch :=
  { p with feats := setAssoc p.feats k r }

/-- The name-to-reference mapping a patch currently holds for feature type `t`. -/
def EOPatch.getMap (p : EOPatch) (t : FeatureType) : List (FKey × Nat) :=
  p.feats.filter (fun e => e.1.1 = t)

/-- The payload value at key `k` of patch `p`, read through memory `m`. -/
def valueAt (p : EOPatch) (m : Mem) (k : FKey) : Option NDArray :=
  (lookupF p k).map m.lookupArr

/-- Deep value view of a feature list: each reference replaced by the array it holds. -/
def materializeList (m : Mem) (l : List (FKey × Nat)) : List (FKey × NDArray) :=
  l.map (fun e => (e.1, m.lookupArr e.2))

/-- Deep value view of a whole patch, the basis of patch equality (spec
section 3: equality is deep value equality, not identity). -/
def materializeP (m : Mem) (p : EOPatch) :
    List (FKey × NDArray) × Option (Int × Int × Int × Int × Nat) × List Nat :=
  (materializeList m p.feats, p.bboxVal, p.timestamps)

/-- Well-formedness of a patch against a memory: every bound reference has been
allocated (it is below the fresh counter and present in the heap). -/
def wfPatch (p : EOPatch) (m : Mem) : Prop :=
  ∀ e ∈ p.feats, e.2 < m.next ∧ m.hasRef e.2

instance (p : EOPatch) (m : Mem) : Decidable (wfPatch p m) :=
  List.decidableBAll _ p.feats

/-- Error taxonomy of the task library (spec section 7). -/
inductive EOErr where
  | missingFeature
  | duplicateFeature
  | shapeMismatch
  | indexOutOfRange
  | invalidArgument
  | unsupportedOperation
  deriving DecidableEq, Repr

/-- Modelled from the spec: `CopyTask.execute` of `core_tasks.py` (not included
under `src/`).  Spec section 4.2: a new outer container whose payload
references are shared with the source.  In the heap model this is a patch with
the same bindings; the memory is untouched. -/
def copyTask (p : EOPatch) : EOPatch :=
  ⟨p.feats, p.bboxVal, p.timestamps⟩

/-- Deep-copy an association list of payload references: every entry gets a
fresh reference holding a copy of the array the old reference held. -/
def deepCopyList : List (FKey × Nat) → Mem → List (FKey × Nat) × Mem
  | [], m => ([], m)
  | (k, r) :: rest, m =>
    let al := m.alloc (m.lookupArr r)
    let res := deepCopyList rest al.1
    ((k, al.2) :: res.1, res.2)

/-- Modelled from the spec: `DeepCopyTask.execute` of `core_tasks.py` (not
included under `src/`).  Spec section 4.2: a new outer container whose
payloads are independently owned copies. -/
def deepCopyTask (p : EOPatch) (m : Mem) : EOPatch × Mem :=
  let res := deepCopyList p.feats m
  (⟨res.1, p.bboxVal, p.timestamps⟩, res.2)

/-- Modelled from the spec: `DuplicateFeatureTask.execute` of `core_tasks.py`
(not included under `src/`).  Spec section 4.3: for each (type, src, dst)
triple, bind `dst` to the same payload as `src` (shallow) or to an independent
copy (deep); fail with `DuplicateFeature` if `dst` already exists at call
time, and with `MissingFeature` if `src` is absent. -/
def duplicateFeatureTask :
    List (FeatureType × String × String) → Bool → EOPatch → Mem →
      Except EOErr (EOPatch × Mem)
  | [], _, p, m => .ok (p, m)
  | (t, src, dst) :: rest, deep, p, m =>
    if (lookupF p (t, dst)).isSome then .error .duplicateFeature
    else
      match lookupF p (t, src) with
      | none => .error .missingFeature
      | some r =>
        if deep then
          let al := m.alloc (m.lookupArr r)
          duplicateFeatureTask rest deep (addF p (t, dst) al.2) al.1
        else
          duplicateFeatureTask rest deep (addF p (t, dst) r) m

/-- Resolve an ordered list of source keys to their payload values; a key
absent from the patch fails with `MissingFeature` (spec sections 4.1 and 7). -/
def resolvePayloads (p : EOPatch) (m : Mem) : List FKey → Except EOErr (List NDArray)
  | [] => .ok []
  | k :: rest =>
    match lookupF p k with
    | none => .error .missingFeature
    | some r =>
      match resolvePayloads p m rest with
      | .error e => .error e
      | .ok tl => .ok (m.lookupArr r :: tl)

/-- Modelled from the spec: `MergeFeatureTask.execute` of `core_tasks.py` (not
included under `src/`).  Spec section 4.4: concatenate the source payloads
along the caller-specified axis into the destination key; shapes must agree on
every axis except the concatenation axis, otherwise fail with
`ShapeMismatch`. -/
def mergeFeatureTask (srcs : List FKey) (dst : FKey) (a : Int) (p : EOPatch) (m : Mem) :
    Except EOErr (EOPatch × Mem) :=
  match resolvePayloads p m srcs with
  | .error e => .error e
  | .ok arrs =>
    let ax := normAxis (arrs.headD ⟨[], []⟩).shape.length a
    if shapesCompatible (arrs.map NDArray.shape) ax then
      let al := m.alloc (concatenateAxis arrs ax)
      .ok (addF p dst al.2, al.1)
    else .error .shapeMismatch

/-- Modelled from the spec: `ExtractBandsTask.execute` of `core_tasks.py` (not
included under `src/`).  Spec section 4.6: copy the listed channel indices of
the source's last axis into a new, independently owned feature; an index at or
beyond the channel count fails with `IndexOutOfRange`. -/
def extractBandsTask (src dst : FKey) (idx : List Nat) (p : EOPatch) (m : Mem) :
    Except EOErr (EOPatch × Mem) :=
  match lookupF p src with
  | none => .error .missingFeature
  | some r =>
    let arr := m.lookupArr r
    if idx.all (fun i => i < lastDim arr.shape) then
      let al := m.alloc (sliceLast arr idx)
      .ok (addF p dst al.2, al.1)
    else .error .indexOutOfRange

/-- A channel selection of `ExplodeBandsTask`: a bare integer or a list of
indices (spec section 4.6). -/
inductive BandSpec where
  | one (i : Nat)
  | many (l : List Nat)
  deriving DecidableEq, Repr

/-- A bare integer channel selection is normalized to a one-element list. -/
def BandSpec.normalize : BandSpec → List Nat
  | .one i => [i]
  | .many l => l

/-- Modelled from the spec: `ExplodeBandsTask.execute` of `core_tasks.py` (not
included under `src/`).  Spec section 4.6: one new feature per mapping entry,
each holding the selected channel slices of the one source feature. -/
def explodeBandsTask (src : FKey) (mapping : List (FKey × BandSpec)) (p : EOPatch) (m : Mem) :
    Except EOErr (EOPatch × Mem) :=
  match mapping with
  | [] => .ok (p, m)
  | (dst, b) :: rest =>
    match extractBandsTask src dst b.normalize p m with
    | .error e => .error e
    | .ok (p2, m2) => explodeBandsTask src rest p2 m2

/-- The `shape` argument of `InitializeFeatureTask`: a literal shape tuple, a
feature reference, or anything else (spec section 4.5). -/
inductive ShapeArg where
  | lit (s : List Nat)
  | ref (k : FKey)
  | invalid
  deriving DecidableEq, Repr

/-- Required payload rank of each raster and scalar/label feature type (spec
section 3); `none` for vector, metadata and singleton kinds. -/
def requiredRank : FeatureType → Option Nat
  | .data => some 4
  | .mask => some 4
  | .data_timeless => some 3
  | .mask_timeless => some 3
  | .scalar => some 2
  | .label => some 2
  | .scalar_timeless => some 1
  | .label_timeless => some 1
  | _ => none

/-- Bind every listed name of feature type `t` to its own freshly allocated
array holding value `arr`. -/
def bindAll (t : FeatureType) : List String → NDArray → EOPatch → Mem → EOPatch × Mem
  | [], _, p, m => (p, m)
  | n :: rest, arr, p, m =>
    let al := m.alloc arr
    bindAll t rest arr (addF p (t, n) al.2) al.1

/-- Modelled from the spec: `InitializeFeatureTask.execute` of `core_tasks.py`
(not included under `src/`).  Spec section 4.5: create the named features of
one feature type filled with a constant value; a literal shape whose rank
disagrees with the type's required rank fails with `ShapeMismatch`; a shape
argument that is neither a literal sequence of integers nor a resolvable
feature reference fails with `InvalidArgument`. -/
def initializeFeatureTask (t : FeatureType) (names : List String) (sh : ShapeArg)
    (v : Int) (p : EOPatch) (m : Mem) : Except EOErr (EOPatch × Mem) :=
  match sh with
  | .invalid => .error .invalidArgument
  | .ref k =>
    match lookupF p k with
    | none => .error .missingFeature
    | some r => .ok (bindAll t names (fillArray (m.lookupArr r).shape v) p m)
  | .lit s =>
    match requiredRank t with
    | none => .error .invalidArgument
    | some rk =>
      if s.length = rk then .ok (bindAll t names (fillArray s v) p m)
      else .error .shapeMismatch

/-- Modelled from the spec: `ZipFeatureTask.execute` of `core_tasks.py` (not
included under `src/`).  Spec section 4.4: apply the combining function to the
resolved source payloads in order and bind the result to the destination key;
without a function, anything other than the trivial single-source fallback
fails with `UnsupportedOperation`. -/
def zipFeatureTask (ins : List FKey) (dst : FKey)
    (f : Option (List NDArray → NDArray)) (p : EOPatch) (m : Mem) :
    Except EOErr (EOPatch × Mem) :=
  match resolvePayloads p m ins with
  | .error e => .error e
  | .ok arrs =>
    match f with
    | some g =>
      let al := m.alloc (g arrs)
      .ok (addF p dst al.2, al.1)
    | none =>
      match arrs with
      | [a] =>
        let al := m.alloc a
        .ok (addF p dst al.2, al.1)
      | _ => .error .unsupportedOperation

/-- Apply a mapping function to each (destination, payload) pair in order,
allocating one fresh array per destination. -/
def mapApply (g : NDArray → NDArray) :
    List (FKey × NDArray) → EOPatch → Mem → EOPatch × Mem
  | [], p2, m2 => (p2, m2)
  | (dst, a) :: rest, p2, m2 =>
    let al := m2.alloc (g a)
    mapApply g rest (addF p2 dst al.2) al.1

/-- Modelled from the spec: `MapFeatureTask.execute` of `core_tasks.py` (not
included under `src/`).  Spec section 4.4: apply the unary function
independently to each source payload, binding the positionally paired
destination; without a function, more than one source is ambiguous and fails
with `UnsupportedOperation`. -/
def mapFeatureTask (pairs : List (FKey × FKey)) (f : Option (NDArray → NDArray))
    (p : EOPatch) (m : Mem) : Except EOErr (EOPatch × Mem) :=
  match resolvePayloads p m (pairs.map Prod.fst) with
  | .error e => .error e
  | .ok arrs =>
    match f with
    | some g => .ok (mapApply g ((pairs.map Prod.snd).zip arrs) p m)
    | none =>
      match pairs, arrs with
      | [(_, dst)], [a] =>
        let al := m.alloc a
        .ok (addF p dst al.2, al.1)
      | _, _ => .error .unsupportedOperation

/-- A selector of `RemoveFeatureTask`: one exact key, or the wildcard over one
feature type (spec section 4.1). -/
inductive RSel where
  | key (k : FKey)
  | wildcard (t : FeatureType)
  deriving DecidableEq, Repr

/-- Modelled from the spec: `RemoveFeatureTask.execute` of `core_tasks.py` (not
included under `src/`).  Spec section 4.3: delete the resolved keys; the
wildcard on a type removes every entry of that type; removing an absent key is
a no-op. -/
def removeFeatureTask : List RSel → EOPatch → EOPatch
  | [], p => p
  | .key k :: rest, p =>
    removeFeatureTask rest { p with feats := p.feats.filter (fun e => e.1 ≠ k) }
  | .wildcard t :: rest, p =>
    removeFeatureTask rest { p with feats := p.feats.filter (fun e => e.1.1 ≠ t) }

/-- Memory evolution relation: the fresh counter does not decrease, values
below the old counter are preserved, and allocated references stay allocated. -/
def MemExtends (m m' : Mem) : Prop :=
  m.next ≤ m'.next ∧ (∀ r < m.next, m'.lookupArr r = m.lookupArr r) ∧
    (∀ r, m.hasRef r → m'.hasRef r)

/-! Concrete fixtures used by the witness theorems. -/

/-- A small time-dependent raster payload. -/
def arrA : NDArray := ⟨[1, 1, 1, 2], [7, 8]⟩

/-- A small timeless raster payload. -/
def arrB : NDArray := ⟨[1, 1, 2], [1, 2]⟩

/-- A concrete patch fixture with one DATA and one MASK_TIMELESS feature. -/
def p0 : EOPatch :=
  ⟨[((FeatureType.data, "bands"), 0), ((FeatureType.mask_timeless, "mask"), 1)],
   some (0, 0, 10, 10, 3857), [5, 6]⟩

/-- The memory fixture holding the two payloads of `p0`. -/
def m0 : Mem := ⟨2, [(0, arrA), (1, arrB)]⟩

/-- A one-feature source patch for the duplicate-twice scenario. -/
def p1 : EOPatch := ⟨[((FeatureType.data, "x"), 0)], none, []⟩

/-- The memory fixture holding the payload of `p1`. -/
def m1 : Mem := ⟨1, [(0, arrA)]⟩

/-- First merge-fixture payload, shape (1,1,1,2). -/
def arrC : NDArray := ⟨[1, 1, 1, 2], [1, 2]⟩

/-- Second merge-fixture payload, shape (1,1,1,2). -/
def arrD : NDArray := ⟨[1, 1, 1, 2], [3, 4]⟩

/-- A payload whose non-axis shape disagrees with `arrC` for axis -1. -/
def arrE : NDArray := ⟨[2, 1, 1, 2], [5, 6, 7, 8]⟩

/-- A two-feature patch for the merge fixtures. -/
def pM : EOPatch :=
  ⟨[((FeatureType.data, "D1"), 0), ((FeatureType.data, "D2"), 1)], none, []⟩

/-- Memory for the compatible merge fixture. -/
def mM : Mem := ⟨2, [(0, arrC), (1, arrD)]⟩

/-- Memory holding an incompatible second payload. -/
def mB : Mem := ⟨2, [(0, arrC), (1, arrE)]⟩

/-- Whether a task run ended without an error. -/
def runOk (x : Except EOErr (EOPatch × Mem)) : Bool :=
  match x with
  | .ok _ => true
  | .error _ => false

/-- The patch a successful task run returned (a default empty patch otherwise). -/
def runPatch (x : Except EOErr (EOPatch × Mem)) : EOPatch :=
  match x with
  | .ok y => y.1
  | .error _ => ⟨[], none, []⟩

/-- The memory a successful task run returned (a default empty memory otherwise). -/
def runMem (x : Except EOErr (EOPatch × Mem)) : Mem :=
  match x with
  | .ok y => y.2
  | .error _ => ⟨0, []⟩

/-! Basic lemmas about the heap and the association-list operations. -/

theorem lookupAssoc_mem {l : List (FKey × Nat)} {k : FKey} {r : Nat}
    (h : lookupAssoc l k = some r) : (k, r) ∈ l := by
  induction l with
  | nil => simp [lookupAssoc] at h
  | cons e rest ih =>
    obtain ⟨k0, r0⟩ := e
    by_cases hk : k0 = k
    · subst hk
      simp [lookupAssoc] at h
      simp [h]
    · simp [lookupAssoc, hk] at h
      exact List.mem_cons_of_mem _ (ih h)

theorem lookup_setAssoc_self (l : List (FKey × Nat)) (k : FKey) (r : Nat) :
    lookupAssoc (setAssoc l k r) k = some r := by
  induction l with
  | nil => simp [setAssoc, lookupAssoc]
  | cons e rest ih =>
    obtain ⟨k0, r0⟩ := e
    by_cases hk : k0 = k
    · simp [setAssoc, hk, lookupAssoc]
    · simp [setAssoc, hk, lookupAssoc, ih]

theorem lookup_setAssoc_ne (l : List (FKey × Nat)) {k k' : FKey} (r : Nat)
    (h : k' ≠ k) : lookupAssoc (setAssoc l k r) k' = lookupAssoc l k' := by
  have hne : ¬ k = k' := fun hkk => h hkk.symm
  induction l with
  | nil => simp [setAssoc, lookupAssoc, hne]
  | cons e rest ih =>
    obtain ⟨k0, r0⟩ := e
    by_cases hk : k0 = k
    · subst hk
      simp [setAssoc, lookupAssoc, hne]
    · simp [setAssoc, hk, lookupAssoc, ih]

theorem mem_setAssoc {l : List (FKey × Nat)} {k : FKey} {r : Nat} {e : FKey × Nat}
    (h : e ∈ setAssoc l k r) : e = (k, r) ∨ e ∈ l := by
  induction l with
  | nil => simp [setAssoc] at h; simp [h]
  | cons e0 rest ih =>
    obtain ⟨k0, r0⟩ := e0
    by_cases hk : k0 = k
    · subst hk
      simp [setAssoc] at h
      rcases h with h | h
      · left; simp [h]
      · right; simp [h]
    · simp [setAssoc, hk] at h
      rcases h with h | h
      · right; simp [h]
      · rcases ih h with h2 | h2
        · left; exact h2
        · right; simp [h2]

theorem heapLookup_writemap_self {hp : List (Nat × NDArray)} {r : Nat} (v : NDArray)
    (h : ∃ e ∈ hp, e.1 = r) :
    heapLookup (hp.map (fun e => if e.1 = r then (e.1, v) else e)) r = v := by
  induction hp with
  | nil => simp at h
  | cons e0 rest ih =>
    obtain ⟨k0, v0⟩ := e0
    simp only [List.map_cons]
    by_cases h0 : k0 = r
    · have hf : (if (k0, v0).1 = r then ((k0, v0).1, v) else (k0, v0)) = (k0, v) := by
        simp [h0]
      rw [hf]
      simp [heapLookup, h0]
    · have hf : (if (k0, v0).1 = r then ((k0, v0).1, v) else (k0, v0)) = (k0, v0) := by
        simp [h0]
      rw [hf]
      rcases h with ⟨e, he, her⟩
      rcases List.mem_cons.1 he with h1 | h1
      · rw [h1] at her
        exact absurd her h0
      · simp [heapLookup, h0]
        exact ih ⟨e, h1, her⟩

theorem heapLookup_writemap_ne {hp : List (Nat × NDArray)} {r r' : Nat} (v : NDArray)
    (h : r ≠ r') :
    heapLookup (hp.map (fun e => if e.1 = r then (e.1, v) else e)) r' = heapLookup hp r' := by
  induction hp with
  | nil => simp [heapLookup]
  | cons e0 rest ih =>
    obtain ⟨k0, v0⟩ := e0
    simp only [List.map_cons]
    by_cases h0 : k0 = r
    · have hf : (if (k0, v0).1 = r then ((k0, v0).1, v) else (k0, v0)) = (k0, v) := by
        simp [h0]
      rw [hf]
      have h1 : ¬ k0 = r' := by rw [h0]; exact h
      simp [heapLookup, h1, ih]
    · have hf : (if (k0, v0).1 = r then ((k0, v0).1, v) else (k0, v0)) = (k0, v0) := by
        simp [h0]
      rw [hf]
      by_cases h1 : k0 = r'
      · simp [heapLookup, h1]
      · simp [heapLookup, h1, ih]

theorem lookupArr_write_self {m : Mem} {r : Nat} (v : NDArray) (h : m.hasRef r) :
    (m.write r v).lookupArr r = v :=
  heapLookup_writemap_self v h

theorem lookupArr_write_ne (m : Mem) {r r' : Nat} (v : NDArray) (h : r ≠ r') :
    (m.write r v).lookupArr r' = m.lookupArr r' :=
  heapLookup_writemap_ne v h

theorem hasRef_write (m : Mem) (r0 : Nat) (v : NDArray) (r : Nat) :
    (m.write r0 v).hasRef r ↔ m.hasRef r := by
  simp only [Mem.hasRef, Mem.write]
  constructor
  · rintro ⟨e, he, her⟩
    obtain ⟨e0, he0, hee⟩ := List.mem_map.1 he
    refine ⟨e0, he0, ?_⟩
    rw [← hee] at her
    by_cases h0 : e0.1 = r0
    · simp [h0] at her
      rw [h0, her]
    · simp [h0] at her
      exact her
  · rintro ⟨e, he, her⟩
    by_cases h0 : e.1 = r0
    · exact ⟨(e.1, v), List.mem_map.2 ⟨e, he, by simp [h0]⟩, her⟩
    · exact ⟨e, List.mem_map.2 ⟨e, he, by simp [h0]⟩, her⟩

theorem write_next (m : Mem) (r : Nat) (v : NDArray) : (m.write r v).next = m.next := rfl

theorem lookupArr_alloc_self (m : Mem) (v : NDArray) :
    (m.alloc v).1.lookupArr (m.alloc v).2 = v := by
  simp [Mem.alloc, Mem.lookupArr, heapLookup]

theorem lookupArr_alloc_ne (m : Mem) (v : NDArray) {r : Nat} (h : r ≠ m.next) :
    (m.alloc v).1.lookupArr r = m.lookupArr r := by
  have h2 : ¬ m.next = r := fun hr => h hr.symm
  simp [Mem.alloc, Mem.lookupArr, heapLookup, h2]

theorem hasRef_alloc_self (m : Mem) (v : NDArray) : (m.alloc v).1.hasRef (m.alloc v).2 :=
  ⟨(m.next, v), by simp [Mem.alloc], rfl⟩

theorem hasRef_alloc_of (m : Mem) (v : NDArray) {r : Nat} (h : m.hasRef r) :
    (m.alloc v).1.hasRef r := by
  obtain ⟨e, he, her⟩ := h
  exact ⟨e, by simp [Mem.alloc, he], her⟩

theorem MemExtends.refl (m : Mem) : MemExtends m m := by
  refine ⟨Nat.le_refl _, fun r hr => rfl, fun r h => h⟩

theorem MemExtends.trans {m1 m2 m3 : Mem} (h1 : MemExtends m1 m2) (h2 : MemExtends m2 m3) :
    MemExtends m1 m3 :=
  ⟨le_trans h1.1 h2.1,
   fun r hr => by rw [h2.2.1 r (lt_of_lt_of_le hr h1.1), h1.2.1 r hr],
   fun r hr => h2.2.2 r (h1.2.2 r hr)⟩

theorem memExtends_alloc (m : Mem) (v : NDArray) : MemExtends m (m.alloc v).1 := by
  refine ⟨by simp [Mem.alloc], fun r hr => lookupArr_alloc_ne m v (by omega), ?_⟩
  exact fun r hr => hasRef_alloc_of m v hr

theorem materializeList_extends {m m' : Mem} {l : List (FKey × Nat)}
    (hext : MemExtends m m') (hb : ∀ e ∈ l, e.2 < m.next) :
    materializeList m' l = materializeList m l := by
  simp only [materializeList]
  apply List.map_congr_left
  intro e he
  rw [hext.2.1 e.2 (hb e he)]

theorem deepCopyList_extends (l : List (FKey × Nat)) (m : Mem) :
    MemExtends m (deepCopyList l m).2 := by
  induction l generalizing m with
  | nil => exact MemExtends.refl m
  | cons e rest ih =>
    obtain ⟨k, r⟩ := e
    simp only [deepCopyList]
    exact (memExtends_alloc m _).trans (ih _)

theorem deepCopyList_refs {l : List (FKey × Nat)} {m : Mem} :
    ∀ e ∈ (deepCopyList l m).1,
      m.next ≤ e.2 ∧ e.2 < (deepCopyList l m).2.next ∧ (deepCopyList l m).2.hasRef e.2 := by
  induction l generalizing m with
  | nil => intro e he; simp [deepCopyList] at he
  | cons e0 rest ih =>
    obtain ⟨k, r⟩ := e0
    intro e he
    simp only [deepCopyList, List.mem_cons] at he
    have hext := deepCopyList_extends rest (m.alloc (m.lookupArr r)).1
    rcases he with he | he
    · subst he
      refine ⟨le_refl _, ?_, ?_⟩
      · simp only [deepCopyList]
        have h1 : (m.alloc (m.lookupArr r)).1.next = m.next + 1 := rfl
        have h2 := hext.1
        simp only [Mem.alloc] at *
        omega
      · simp only [deepCopyList]
        exact hext.2.2 _ (hasRef_alloc_self m _)
    · have h3 := ih e he
      simp only [deepCopyList]
      refine ⟨?_, h3.2.1, h3.2.2⟩
      have h4 : m.next ≤ (m.alloc (m.lookupArr r)).1.next := by simp [Mem.alloc]
      exact le_trans h4 h3.1

theorem deepCopyList_mat {l : List (FKey × Nat)} {m : Mem}
    (hb : ∀ e ∈ l, e.2 < m.next) :
    materializeList (deepCopyList l m).2 (deepCopyList l m).1 = materializeList m l := by
  induction l generalizing m with
  | nil => simp [deepCopyList, materializeList]
  | cons e0 rest ih =>
    obtain ⟨k, r⟩ := e0
    have hb0 : r < m.next := hb (k, r) (List.mem_cons_self _ _)
    have hbr : ∀ e ∈ rest, e.2 < (m.alloc (m.lookupArr r)).1.next := by
      intro e he
      have := hb e (List.mem_cons_of_mem _ he)
      simp only [Mem.alloc]
      omega
    have hext := deepCopyList_extends rest (m.alloc (m.lookupArr r)).1
    simp only [deepCopyList, materializeList, List.map_cons]
    refine congrArg₂ List.cons ?_ ?_
    · have h1 : (deepCopyList rest (m.alloc (m.lookupArr r)).1).2.lookupArr m.next =
          m.lookupArr r := by
        have h2 : (m.alloc (m.lookupArr r)).1.lookupArr m.next = m.lookupArr r :=
          lookupArr_alloc_self m _
        rw [hext.2.1 m.next (by simp [Mem.alloc]), h2]
      show (k, (deepCopyList rest (m.alloc (m.lookupArr r)).1).2.lookupArr m.next) =
        (k, m.lookupArr r)
      rw [h1]
    · have h2 := ih (m := (m.alloc (m.lookupArr r)).1) hbr
      simp only [materializeList] at h2
      rw [h2]
      have h3 : ∀ e ∈ rest, e.2 ≠ m.next := by
        intro e he
        have := hb e (List.mem_cons_of_mem _ he)
        omega
      apply List.map_congr_left
      intro e he
      rw [lookupArr_alloc_ne m _ (h3 e he)]

theorem deepCopyList_lookup {l : List (FKey × Nat)} {m : Mem} {k : FKey} {r : Nat}
    (hb : ∀ e ∈ l, e.2 < m.next) (h : lookupAssoc l k = some r) :
    ∃ r2, lookupAssoc (deepCopyList l m).1 k = some r2 ∧ m.next ≤ r2 ∧
      (deepCopyList l m).2.lookupArr r2 = m.lookupArr r := by
  induction l generalizing m with
  | nil => simp [lookupAssoc] at h
  | cons e0 rest ih =>
    obtain ⟨k0, r0⟩ := e0
    have hext := deepCopyList_extends rest (m.alloc (m.lookupArr r0)).1
    by_cases hk : k0 = k
    · have hr0 : r0 = r := by
        simp [lookupAssoc, hk] at h
        exact h
      subst hr0
      refine ⟨m.next, ?_, le_refl _, ?_⟩
      · simp only [deepCopyList]
        simp [lookupAssoc, hk, Mem.alloc]
      · simp only [deepCopyList]
        have h2 : (m.alloc (m.lookupArr r0)).1.lookupArr m.next = m.lookupArr r0 :=
          lookupArr_alloc_self m _
        rw [hext.2.1 m.next (by simp [Mem.alloc]), h2]
    · have hrest : lookupAssoc rest k = some r := by
        simpa [lookupAssoc, hk] using h
      have hr : r < m.next := hb (k, r) (List.mem_cons_of_mem _ (lookupAssoc_mem hrest))
      have hbr : ∀ e ∈ rest, e.2 < (m.alloc (m.lookupArr r0)).1.next := by
        intro e he
        have := hb e (List.mem_cons_of_mem _ he)
        simp only [Mem.alloc]
        omega
      obtain ⟨r2, hl, hge, hval⟩ := ih (m := (m.alloc (m.lookupArr r0)).1) hbr hrest
      refine ⟨r2, ?_, ?_, ?_⟩
      · simp only [deepCopyList]
        simp [lookupAssoc, hk, hl]
      · have : m.next ≤ (m.alloc (m.lookupArr r0)).1.next := by simp [Mem.alloc]
        omega
      · simp only [deepCopyList]
        rw [hval, lookupArr_alloc_ne m _ (by omega)]

theorem wfPatch_extends {p : EOPatch} {m m2 : Mem} (h : wfPatch p m) (hext : MemExtends m m2) :
    wfPatch p m2 :=
  fun e he => ⟨lt_of_lt_of_le (h e he).1 hext.1, hext.2.2 _ (h e he).2⟩

theorem wfPatch_addF_alloc {p : EOPatch} {m : Mem} (h : wfPatch p m) (k : FKey) (v : NDArray) :
    wfPatch (addF p k (m.alloc v).2) (m.alloc v).1 := by
  intro e he
  simp only [addF] at he
  rcases mem_setAssoc he with he2 | he2
  · rw [he2]
    exact ⟨by simp [Mem.alloc], hasRef_alloc_self m v⟩
  · have := h e he2
    exact ⟨lt_of_lt_of_le this.1 (memExtends_alloc m v).1, hasRef_alloc_of m v this.2⟩

theorem wfPatch_addF {p : EOPatch} {m : Mem} (h : wfPatch p m) {k : FKey} {r : Nat}
    (hr : r < m.next ∧ m.hasRef r) : wfPatch (addF p k r) m := by
  intro e he
  simp only [addF] at he
  rcases mem_setAssoc he with he2 | he2
  · rw [he2]
    exact hr
  · exact h e he2

/-- C1: for every patch P, `CopyTask.execute(P)` returns a new patch Q equal
to P whose payload arrays are the same objects as in P — mutating an array of
Q in place is visible in P, while adding a key to Q is not visible in P —
whereas `DeepCopyTask.execute(P)` returns a patch equal to P whose payload
arrays are independently owned copies: mutating an array of Q in place leaves
P unchanged.  Both tasks are pure functions of P, so P itself is structurally
unmodified. -/
theorem copy_shares_deepcopy_owns (p : EOPatch) (m : Mem) (h : wfPatch p m) :
    materializeP m (copyTask p) = materializeP m p ∧
    (∀ k, lookupF (copyTask p) k = lookupF p k) ∧
    (∀ k r v, lookupF (copyTask p) k = some r →
      valueAt p (m.write r v) k = some v) ∧
    (∀ k r2, lookupF p k = none →
      lookupF (addF (copyTask p) k r2) k = some r2 ∧ lookupF p k = none) ∧
    materializeP (deepCopyTask p m).2 (deepCopyTask p m).1 = materializeP m p ∧
    (∀ k r, lookupF p k = some r →
      ∃ r2, lookupF (deepCopyTask p m).1 k = some r2 ∧ r2 ≠ r ∧
        ∀ v, valueAt p (((deepCopyTask p m).2).write r2 v) k = valueAt p m k) := by
  have hb : ∀ e ∈ p.feats, e.2 < m.next := fun e he => (h e he).1
  refine ⟨rfl, fun k => rfl, ?_, ?_, ?_, ?_⟩
  · intro k r v hk
    have hk2 : lookupAssoc p.feats k = some r := hk
    have hmem : (k, r) ∈ p.feats := lookupAssoc_mem hk2
    have hval : (m.write r v).lookupArr r = v := lookupArr_write_self v (h _ hmem).2
    simp [valueAt, lookupF, hk2, hval]
  · intro k r2 hk
    exact ⟨lookup_setAssoc_self _ _ _, hk⟩
  · simp only [deepCopyTask, materializeP]
    rw [deepCopyList_mat hb]
  · intro k r hk
    obtain ⟨r2, hl, hge, hval⟩ := deepCopyList_lookup hb hk
    have hr : r < m.next := hb (k, r) (lookupAssoc_mem hk)
    refine ⟨r2, hl, by omega, ?_⟩
    intro v
    have hw : (((deepCopyTask p m).2).write r2 v).lookupArr r =
        ((deepCopyTask p m).2).lookupArr r := lookupArr_write_ne _ v (by omega)
    have hpres : ((deepCopyTask p m).2).lookupArr r = m.lookupArr r :=
      (deepCopyList_extends p.feats m).2.1 r hr
    have hk2 : lookupAssoc p.feats k = some r := hk
    simp only [valueAt, lookupF, hk2, Option.map_some]
    exact congrArg some (hw.trans hpres)

/-- C1 witness: the shared-payload mutation and the deep-copy equality hold on
the concrete fixture `p0`, `m0`. -/
theorem copy_shares_deepcopy_owns_wit :
    valueAt p0 (m0.write 0 arrB) (FeatureType.data, "bands") = some arrB ∧
      materializeP (deepCopyTask p0 m0).2 (deepCopyTask p0 m0).1 = materializeP m0 p0 :=
  ⟨(copy_shares_deepcopy_owns p0 m0 (by decide)).2.2.1 _ 0 arrB (by decide),
   (copy_shares_deepcopy_owns p0 m0 (by decide)).2.2.2.2.1⟩

/-- C3: for every patch P and triple (type, src, dst) with (type, dst) already
present in P, `DuplicateFeatureTask` fails with `DuplicateFeature`; and after
any successful run of a duplicate task, running the same task again on the
returned patch fails with `DuplicateFeature`, because the destination now
exists. -/
theorem duplicate_existing_destination_fails (p : EOPatch) (m : Mem) (deep : Bool)
    (t : FeatureType) (src dst : String) (rest : List (FeatureType × String × String))
    (h : lookupF p (t, dst) ≠ none) :
    duplicateFeatureTask ((t, src, dst) :: rest) deep p m = .error .duplicateFeature ∧
    (∀ p2 m2 q m3, duplicateFeatureTask [(t, src, dst)] deep p2 m2 = .ok (q, m3) →
      duplicateFeatureTask [(t, src, dst)] deep q m3 = .error .duplicateFeature) := by
  constructor
  · have h1 : (lookupF p (t, dst)).isSome = true := Option.isSome_iff_ne_none.2 h
    simp [duplicateFeatureTask, h1]
  · intro p2 m2 q m3 hok
    by_cases h1 : (lookupF p2 (t, dst)).isSome
    · simp [duplicateFeatureTask, h1] at hok
    · cases h2 : lookupF p2 (t, src) with
      | none => simp [duplicateFeatureTask, h1, h2] at hok
      | some r =>
        cases deep with
        | true =>
          simp [duplicateFeatureTask, h1, h2] at hok
          have hq : lookupF q (t, dst) = some (m2.alloc (m2.lookupArr r)).2 := by
            rw [← hok.1]
            exact lookup_setAssoc_self _ _ _
          have hq2 : (lookupF q (t, dst)).isSome = true := by rw [hq]; rfl
          simp [duplicateFeatureTask, hq2]
        | false =>
          simp [duplicateFeatureTask, h1, h2] at hok
          have hq : lookupF q (t, dst) = some r := by
            rw [← hok.1]
            exact lookup_setAssoc_self _ _ _
          have hq2 : (lookupF q (t, dst)).isSome = true := by rw [hq]; rfl
          simp [duplicateFeatureTask, hq2]

/-- C3 witness: duplicating onto the existing name "bands" of `p0` fails, and
after a successful duplication on `p1` the same call fails the second time. -/
theorem duplicate_existing_destination_fails_wit :
    duplicateFeatureTask [(FeatureType.data, "x", "bands")] false p0 m0 =
      .error .duplicateFeature ∧
    duplicateFeatureTask [(FeatureType.data, "x", "bands")] false
      ⟨[((FeatureType.data, "x"), 0), ((FeatureType.data, "bands"), 0)], none, []⟩ m1 =
      .error .duplicateFeature :=
  ⟨(duplicate_existing_destination_fails p0 m0 false FeatureType.data "x" "bands" []
      (by decide)).1,
   (duplicate_existing_destination_fails p0 m0 false FeatureType.data "x" "bands" []
      (by decide)).2
     p1 m1 ⟨[((FeatureType.data, "x"), 0), ((FeatureType.data, "bands"), 0)], none, []⟩ m1
     (by rfl)⟩

theorem filter_ne_key_of_absent {l : List (FKey × Nat)} {k : FKey}
    (h : lookupAssoc l k = none) : l.filter (fun e => e.1 ≠ k) = l := by
  induction l with
  | nil => rfl
  | cons e0 rest ih =>
    obtain ⟨k0, r0⟩ := e0
    by_cases hk : k0 = k
    · simp [lookupAssoc, hk] at h
    · simp only [lookupAssoc, if_neg hk] at h
      simp only [List.filter_cons]
      rw [if_pos (by simp [hk]), ih h]

/-- C9: removing with the wildcard selector on feature type t deletes every
entry of t, leaving an empty mapping for t, while every other feature type's
mapping and the singleton slots are unchanged; removing a key absent from the
patch is a no-op returning the patch unchanged. -/
theorem remove_wildcard_empties_type (p : EOPatch) (t : FeatureType) (k : FKey)
    (hk : lookupF p k = none) :
    (removeFeatureTask [RSel.wildcard t] p).getMap t = [] ∧
    (∀ t2, t2 ≠ t → (removeFeatureTask [RSel.wildcard t] p).getMap t2 = p.getMap t2) ∧
    (removeFeatureTask [RSel.wildcard t] p).bboxVal = p.bboxVal ∧
    (removeFeatureTask [RSel.wildcard t] p).timestamps = p.timestamps ∧
    removeFeatureTask [RSel.key k] p = p := by
  refine ⟨?_, ?_, rfl, rfl, ?_⟩
  · simp only [removeFeatureTask, EOPatch.getMap]
    rw [List.filter_filter]
    rw [List.filter_eq_nil]
    intro e he
    by_cases h1 : e.1.1 = t <;> simp [h1]
  · intro t2 ht2
    simp only [removeFeatureTask, EOPatch.getMap]
    rw [List.filter_filter]
    apply List.filter_congr
    intro e he
    by_cases h1 : e.1.1 = t2
    · have h2 : e.1.1 ≠ t := by rw [h1]; exact ht2
      simp [h1, h2, ht2]
    · simp [h1]
  · simp only [removeFeatureTask]
    rw [filter_ne_key_of_absent hk]

/-- C9 witness: the wildcard removal and absent-key no-op on the fixture `p0`. -/
theorem remove_wildcard_empties_type_wit :
    (removeFeatureTask [RSel.wildcard FeatureType.mask_timeless] p0).getMap
      FeatureType.mask_timeless = [] ∧
    (removeFeatureTask [RSel.wildcard FeatureType.mask_timeless] p0).getMap
      FeatureType.data = p0.getMap FeatureType.data ∧
    removeFeatureTask [RSel.key (FeatureType.data, "nope")] p0 = p0 :=
  ⟨(remove_wildcard_empties_type p0 FeatureType.mask_timeless (FeatureType.data, "nope")
      (by decide)).1,
   (remove_wildcard_empties_type p0 FeatureType.mask_timeless (FeatureType.data, "nope")
      (by decide)).2.1 FeatureType.data (by decide),
   (remove_wildcard_empties_type p0 FeatureType.mask_timeless (FeatureType.data, "nope")
      (by decide)).2.2.2.2⟩

/-- C2: merging an ordered list of source features into a destination key
binds the destination to the concatenation of the source payloads along the
requested axis, exactly `concatenate([P[f] for f in features], axis)`; if the
shapes disagree on any non-concatenation axis the task fails with
`ShapeMismatch`. -/
theorem merge_concatenates_sources (p : EOPatch) (m : Mem) (srcs : List FKey)
    (dst : FKey) (a : Int) (arrs : List NDArray) (ax : Nat)
    (hres : resolvePayloads p m srcs = .ok arrs)
    (hax : ax = normAxis (arrs.headD ⟨[], []⟩).shape.length a) :
    (shapesCompatible (arrs.map NDArray.shape) ax = true →
      mergeFeatureTask srcs dst a p m =
        .ok (addF p dst (m.alloc (concatenateAxis arrs ax)).2,
             (m.alloc (concatenateAxis arrs ax)).1) ∧
      valueAt (addF p dst (m.alloc (concatenateAxis arrs ax)).2)
        (m.alloc (concatenateAxis arrs ax)).1 dst = some (concatenateAxis arrs ax)) ∧
    (shapesCompatible (arrs.map NDArray.shape) ax = false →
      mergeFeatureTask srcs dst a p m = .error .shapeMismatch) := by
  subst hax
  constructor
  · intro hc
    rw [List.headD_eq_head?] at hc
    constructor
    · simp [mergeFeatureTask, hres, hc]
    · have h1 : lookupF (addF p dst (m.alloc (concatenateAxis arrs
          (normAxis (arrs.headD ⟨[], []⟩).shape.length a))).2) dst =
          some (m.alloc (concatenateAxis arrs
            (normAxis (arrs.headD ⟨[], []⟩).shape.length a))).2 :=
        lookup_setAssoc_self _ _ _
      simp only [valueAt, h1, Option.map_some]
      exact congrArg some (lookupArr_alloc_self m _)
  · intro hc
    rw [List.headD_eq_head?] at hc
    simp [mergeFeatureTask, hres, hc]

/-- C2 witness: merging the two compatible fixtures along axis -1 binds the
destination to their concatenation, and the incompatible fixture fails with
`ShapeMismatch`. -/
theorem merge_concatenates_sources_wit :
    valueAt (addF pM (FeatureType.data, "merged") (mM.alloc (concatenateAxis [arrC, arrD] 3)).2)
      (mM.alloc (concatenateAxis [arrC, arrD] 3)).1 (FeatureType.data, "merged") =
      some (concatenateAxis [arrC, arrD] 3) ∧
    mergeFeatureTask [(FeatureType.data, "D1"), (FeatureType.data, "D2")]
      (FeatureType.data, "merged") (-1) pM mB = .error .shapeMismatch :=
  ⟨((merge_concatenates_sources pM mM
      [(FeatureType.data, "D1"), (FeatureType.data, "D2")]
      (FeatureType.data, "merged") (-1) [arrC, arrD] 3 (by rfl) (by rfl)).1 (by decide)).2,
   (merge_concatenates_sources pM mB
      [(FeatureType.data, "D1"), (FeatureType.data, "D2")]
      (FeatureType.data, "merged") (-1) [arrC, arrE] 3 (by rfl) (by rfl)).2 (by decide)⟩

/-- C5: extracting a list of channel indices from a 4-axis source feature
binds the destination to the source payload sliced by those indices on its
last axis; the result is an independently owned copy, so mutating it in place
leaves the source payload unchanged; an index at or beyond the source's
channel count fails with `IndexOutOfRange`. -/
theorem extract_bands_slices (p : EOPatch) (m : Mem) (src dst : FKey)
    (idx : List Nat) (r : Nat) (arr : NDArray)
    (hsrc : lookupF p src = some r) (harr : m.lookupArr r = arr)
    (hrank : arr.shape.length = 4) (h : wfPatch p m) :
    (idx.all (fun i => i < lastDim arr.shape) = true →
      extractBandsTask src dst idx p m =
        .ok (addF p dst (m.alloc (sliceLast arr idx)).2, (m.alloc (sliceLast arr idx)).1) ∧
      valueAt (addF p dst (m.alloc (sliceLast arr idx)).2) (m.alloc (sliceLast arr idx)).1
        dst = some (sliceLast arr idx) ∧
      (m.alloc (sliceLast arr idx)).2 ≠ r ∧
      ∀ v, valueAt p
          ((m.alloc (sliceLast arr idx)).1.write (m.alloc (sliceLast arr idx)).2 v) src =
        valueAt p m src) ∧
    (idx.all (fun i => i < lastDim arr.shape) = false →
      extractBandsTask src dst idx p m = .error .indexOutOfRange) := by
  have hr : r < m.next := (h (src, r) (lookupAssoc_mem hsrc)).1
  constructor
  · intro hc
    refine ⟨?_, ?_, ?_, ?_⟩
    · simp [extractBandsTask, hsrc, harr, hc]
    · have h1 : lookupF (addF p dst (m.alloc (sliceLast arr idx)).2) dst =
          some (m.alloc (sliceLast arr idx)).2 := lookup_setAssoc_self _ _ _
      simp only [valueAt, h1, Option.map_some]
      exact congrArg some (lookupArr_alloc_self m _)
    · show m.next ≠ r
      omega
    · intro v
      have hw : ((m.alloc (sliceLast arr idx)).1.write (m.alloc (sliceLast arr idx)).2
          v).lookupArr r = (m.alloc (sliceLast arr idx)).1.lookupArr r :=
        lookupArr_write_ne _ v (by show m.next ≠ r; omega)
      have ha : (m.alloc (sliceLast arr idx)).1.lookupArr r = m.lookupArr r :=
        lookupArr_alloc_ne m _ (by omega)
      simp only [valueAt, hsrc, Option.map_some]
      exact congrArg some (hw.trans ha)
  · intro hc
    simp [extractBandsTask, hsrc, harr, hc]

/-- C5 witness: extracting channel [1] from the 4-axis fixture payload, and
failing with `IndexOutOfRange` on index 5. -/
theorem extract_bands_slices_wit :
    valueAt (addF p0 (FeatureType.data, "out") (m0.alloc (sliceLast arrA [1])).2)
      (m0.alloc (sliceLast arrA [1])).1 (FeatureType.data, "out") =
      some (sliceLast arrA [1]) ∧
    extractBandsTask (FeatureType.data, "bands") (FeatureType.data, "out") [5] p0 m0 =
      .error .indexOutOfRange :=
  ⟨((extract_bands_slices p0 m0 (FeatureType.data, "bands") (FeatureType.data, "out")
      [1] 0 arrA (by decide) (by decide) (by decide) (by decide)).1 (by decide)).2.1,
   (extract_bands_slices p0 m0 (FeatureType.data, "bands") (FeatureType.data, "out")
      [5] 0 arrA (by decide) (by decide) (by decide) (by decide)).2 (by decide)⟩

theorem bindAll_extends (t : FeatureType) (names : List String) (arr : NDArray)
    (p : EOPatch) (m : Mem) : MemExtends m (bindAll t names arr p m).2 := by
  induction names generalizing p m with
  | nil => exact MemExtends.refl m
  | cons n0 rest ih =>
    simp only [bindAll]
    exact (memExtends_alloc m arr).trans (ih _ _)

theorem bindAll_lookup_other {t : FeatureType} {names : List String} {arr : NDArray}
    {p : EOPatch} {m : Mem} {k : FKey} (hk : k.2 ∉ names) :
    lookupF (bindAll t names arr p m).1 k = lookupF p k := by
  induction names generalizing p m with
  | nil => rfl
  | cons n0 rest ih =>
    simp only [bindAll]
    have hk2 : k.2 ∉ rest := fun hmem => hk (List.mem_cons_of_mem _ hmem)
    have hne : k ≠ (t, n0) := by
      intro he
      exact hk (by rw [he]; exact List.mem_cons_self _ _)
    rw [ih hk2]
    exact lookup_setAssoc_ne _ _ hne

theorem bindAll_values {t : FeatureType} {names : List String} {arr : NDArray}
    {p : EOPatch} {m : Mem} :
    ∀ n ∈ names,
      valueAt (bindAll t names arr p m).1 (bindAll t names arr p m).2 (t, n) = some arr := by
  induction names generalizing p m with
  | nil => intro n hn; simp at hn
  | cons n0 rest ih =>
    intro n hn
    rcases List.mem_cons.1 hn with hn | hn
    · subst hn
      by_cases hmem : n ∈ rest
      · simp only [bindAll]
        exact ih n hmem
      · simp only [bindAll]
        have hl : lookupF (bindAll t rest arr (addF p (t, n) (m.alloc arr).2)
            (m.alloc arr).1).1 (t, n) =
            lookupF (addF p (t, n) (m.alloc arr).2) (t, n) := bindAll_lookup_other hmem
        have hl2 : lookupF (addF p (t, n) (m.alloc arr).2) (t, n) =
            some (m.alloc arr).2 := lookup_setAssoc_self _ _ _
        have hext := bindAll_extends t rest arr (addF p (t, n) (m.alloc arr).2) (m.alloc arr).1
        have hval : (bindAll t rest arr (addF p (t, n) (m.alloc arr).2)
            (m.alloc arr).1).2.lookupArr (m.alloc arr).2 = arr := by
          have h1 : (m.alloc arr).1.lookupArr m.next = arr := lookupArr_alloc_self m arr
          rw [hext.2.1 (m.alloc arr).2 (by simp [Mem.alloc])]
          exact h1
        simp only [valueAt, hl, hl2]
        exact congrArg some hval
    · simp only [bindAll]
      exact ih n hn

/-- C7: initializing features from a literal shape whose rank matches the
feature type's required rank binds every named feature to an array of that
shape filled uniformly with the initial value; a literal shape whose rank
disagrees with the required rank fails with `ShapeMismatch`; a shape argument
that is neither a literal integer sequence nor a feature reference fails with
`InvalidArgument`. -/
theorem initialize_feature_checked (p : EOPatch) (m : Mem) (t : FeatureType)
    (names : List String) (s : List Nat) (v : Int) (rk : Nat)
    (hrk : requiredRank t = some rk) :
    (s.length = rk →
      initializeFeatureTask t names (.lit s) v p m =
        .ok (bindAll t names (fillArray s v) p m) ∧
      (∀ n ∈ names,
        valueAt (bindAll t names (fillArray s v) p m).1
          (bindAll t names (fillArray s v) p m).2 (t, n) = some (fillArray s v)) ∧
      (fillArray s v).shape = s ∧ (fillArray s v).data = List.replicate s.prod v) ∧
    (s.length ≠ rk →
      initializeFeatureTask t names (.lit s) v p m = .error .shapeMismatch) ∧
    initializeFeatureTask t names .invalid v p m = .error .invalidArgument := by
  refine ⟨?_, ?_, rfl⟩
  · intro hlen
    refine ⟨?_, fun n hn => bindAll_values n hn, rfl, rfl⟩
    simp [initializeFeatureTask, hrk, hlen]
  · intro hlen
    simp [initializeFeatureTask, hrk, hlen]

/-- C7 witness: initializing two MASK features from the 4-axis literal shape
succeeds with uniformly filled payloads; a 4-axis shape on MASK_TIMELESS
fails with `ShapeMismatch`; an unrecognized shape argument fails with
`InvalidArgument`. -/
theorem initialize_feature_checked_wit :
    valueAt (bindAll FeatureType.mask ["F1", "F2"] (fillArray [1, 1, 1, 2] 123) p0 m0).1
      (bindAll FeatureType.mask ["F1", "F2"] (fillArray [1, 1, 1, 2] 123) p0 m0).2
      (FeatureType.mask, "F1") = some (fillArray [1, 1, 1, 2] 123) ∧
    initializeFeatureTask FeatureType.mask_timeless ["wrong"] (.lit [1, 1, 1, 2]) 123 p0 m0 =
      .error .shapeMismatch ∧
    initializeFeatureTask FeatureType.data ["F1"] .invalid 0 p0 m0 =
      .error .invalidArgument :=
  ⟨((initialize_feature_checked p0 m0 FeatureType.mask ["F1", "F2"] [1, 1, 1, 2] 123 4
      (by decide)).1 (by decide)).2.1 "F1" (by decide),
   (initialize_feature_checked p0 m0 FeatureType.mask_timeless ["wrong"] [1, 1, 1, 2] 123 3
      (by decide)).2.1 (by decide),
   (initialize_feature_checked p0 m0 FeatureType.data ["F1"] [1, 1, 1, 2] 0 4
      (by decide)).2.2⟩

theorem resolvePayloads_length {p : EOPatch} {m : Mem} :
    ∀ {ks : List FKey} {arrs : List NDArray},
      resolvePayloads p m ks = .ok arrs → arrs.length = ks.length := by
  intro ks
  induction ks with
  | nil => intro arrs h; simp [resolvePayloads] at h; simp [← h]
  | cons k rest ih =>
    intro arrs h
    simp only [resolvePayloads] at h
    cases h1 : lookupF p k with
    | none => rw [h1] at h; simp at h
    | some r =>
      rw [h1] at h
      cases h2 : resolvePayloads p m rest with
      | error e => rw [h2] at h; simp at h
      | ok tl =>
        rw [h2] at h
        simp at h
        rw [← h]
        simp [ih h2]

/-- C8: a `ZipFeatureTask` or `MapFeatureTask` constructed without a
combining/mapping function fails with `UnsupportedOperation` whenever more
than one source feature is resolved (no implicit default combiner); the run
ends in the error, so no destination feature is ever added to a patch. -/
theorem zip_map_require_function (p : EOPatch) (m : Mem) (ins : List FKey) (dst : FKey)
    (pairs : List (FKey × FKey)) (arrs arrs2 : List NDArray)
    (hres : resolvePayloads p m ins = .ok arrs) (hlen : 1 < ins.length)
    (hres2 : resolvePayloads p m (pairs.map Prod.fst) = .ok arrs2)
    (hlen2 : 1 < pairs.length) :
    zipFeatureTask ins dst none p m = .error .unsupportedOperation ∧
    mapFeatureTask pairs none p m = .error .unsupportedOperation := by
  have hal : arrs.length = ins.length := resolvePayloads_length hres
  constructor
  · rcases arrs with _ | ⟨a, _ | ⟨b, rest⟩⟩
    · simp at hal; omega
    · simp at hal; omega
    · simp [zipFeatureTask, hres]
  · rcases pairs with _ | ⟨x, _ | ⟨y, rest⟩⟩
    · simp at hlen2
    · simp at hlen2
    · simp only [List.map_cons] at hres2
      simp [mapFeatureTask, hres2]

/-- C8 witness: zipping or mapping the two fixture DATA features without a
function fails with `UnsupportedOperation`. -/
theorem zip_map_require_function_wit :
    zipFeatureTask [(FeatureType.data, "D1"), (FeatureType.data, "D2")]
      (FeatureType.data, "Z") none pM mM = .error .unsupportedOperation ∧
    mapFeatureTask [((FeatureType.data, "D1"), (FeatureType.data, "C1")),
      ((FeatureType.data, "D2"), (FeatureType.data, "C2"))] none pM mM =
      .error .unsupportedOperation :=
  zip_map_require_function pM mM [(FeatureType.data, "D1"), (FeatureType.data, "D2")]
    (FeatureType.data, "Z")
    [((FeatureType.data, "D1"), (FeatureType.data, "C1")),
     ((FeatureType.data, "D2"), (FeatureType.data, "C2"))]
    [arrC, arrD] [arrC, arrD] (by rfl) (by decide) (by rfl) (by decide)

theorem duplicate_many_aux {t : FeatureType} {src : String} {deep : Bool}
    {dsts : List String} {p : EOPatch} {m : Mem} {r0 : Nat} {V : NDArray}
    (hwf : wfPatch p m)
    (hsrc : lookupF p (t, src) = some r0)
    (hV : m.lookupArr r0 = V)
    (habs : ∀ d ∈ dsts, lookupF p (t, d) = none)
    (hnd : dsts.Nodup) :
    ∃ q m2, duplicateFeatureTask (dsts.map (fun d => (t, src, d))) deep p m = .ok (q, m2) ∧
      MemExtends m m2 ∧ wfPatch q m2 ∧ lookupF q (t, src) = some r0 ∧
      (∀ d ∈ dsts, ∃ rd, lookupF q (t, d) = some rd ∧ m2.lookupArr rd = V ∧
        (deep = false → rd = r0) ∧ (deep = true → rd ≠ r0)) ∧
      (∀ k : FKey, k.2 ∉ dsts → lookupF q k = lookupF p k) := by
  induction dsts generalizing p m with
  | nil =>
    exact ⟨p, m, rfl, MemExtends.refl m, hwf, hsrc, by simp, fun k _ => rfl⟩
  | cons d0 rest ih =>
    have hr0 : r0 < m.next := (hwf (_, r0) (lookupAssoc_mem hsrc)).1
    have hd0 : lookupF p (t, d0) = none := habs d0 (List.mem_cons_self _ _)
    have hiss : (lookupF p (t, d0)).isSome = false := by simp [hd0]
    have hsrcne : src ≠ d0 := by
      intro he
      rw [he] at hsrc
      rw [hsrc] at hd0
      exact Option.noConfusion hd0
    have hd0rest : d0 ∉ rest := (List.nodup_cons.1 hnd).1
    have hndr : rest.Nodup := (List.nodup_cons.1 hnd).2
    cases deep with
    | false =>
      have hwf2 : wfPatch (addF p (t, d0) r0) m :=
        wfPatch_addF hwf (hwf (_, r0) (lookupAssoc_mem hsrc))
      have hsrc2 : lookupF (addF p (t, d0) r0) (t, src) = some r0 := by
        rw [lookupF, addF]
        rw [lookup_setAssoc_ne _ _ (by simp [hsrcne])]
        exact hsrc
      have habs2 : ∀ d ∈ rest, lookupF (addF p (t, d0) r0) (t, d) = none := by
        intro d hd
        have hne : d ≠ d0 := fun he => hd0rest (he ▸ hd)
        rw [lookupF, addF]
        rw [lookup_setAssoc_ne _ _ (by simp [hne])]
        exact habs d (List.mem_cons_of_mem _ hd)
      obtain ⟨q, m2, hok, hext, hwfq, hsrcq, hvals, hframe⟩ :=
        ih hwf2 hsrc2 hV habs2 hndr
      refine ⟨q, m2, ?_, hext, hwfq, hsrcq, ?_, ?_⟩
      · simp only [List.map_cons, duplicateFeatureTask, hiss, hsrc]
        simp only [Bool.false_eq_true, if_false]
        exact hok
      · intro d hd
        rcases List.mem_cons.1 hd with hd | hd
        · subst hd
          refine ⟨r0, ?_, ?_, fun _ => rfl, fun hc => Bool.noConfusion hc⟩
          · rw [hframe (t, d) hd0rest, lookupF, addF]
            exact lookup_setAssoc_self _ _ _
          · rw [hext.2.1 r0 hr0]
            exact hV
        · exact hvals d hd
      · intro k hk
        have hk1 : k.2 ∉ rest := fun hmem => hk (List.mem_cons_of_mem _ hmem)
        have hk2 : k ≠ (t, d0) := by
          intro he
          exact hk (by rw [he]; exact List.mem_cons_self _ _)
        rw [hframe k hk1, lookupF, addF, lookup_setAssoc_ne _ _ hk2]
        rfl
    | true =>
      have hwf2 : wfPatch (addF p (t, d0) (m.alloc (m.lookupArr r0)).2)
          (m.alloc (m.lookupArr r0)).1 := wfPatch_addF_alloc hwf _ _
      have hsrc2 : lookupF (addF p (t, d0) (m.alloc (m.lookupArr r0)).2) (t, src) =
          some r0 := by
        rw [lookupF, addF]
        rw [lookup_setAssoc_ne _ _ (by simp [hsrcne])]
        exact hsrc
      have hV2 : (m.alloc (m.lookupArr r0)).1.lookupArr r0 = V := by
        rw [lookupArr_alloc_ne m _ (by omega)]
        exact hV
      have habs2 : ∀ d ∈ rest,
          lookupF (addF p (t, d0) (m.alloc (m.lookupArr r0)).2) (t, d) = none := by
        intro d hd
        have hne : d ≠ d0 := fun he => hd0rest (he ▸ hd)
        rw [lookupF, addF]
        rw [lookup_setAssoc_ne _ _ (by simp [hne])]
        exact habs d (List.mem_cons_of_mem _ hd)
      obtain ⟨q, m2, hok, hext, hwfq, hsrcq, hvals, hframe⟩ :=
        ih hwf2 hsrc2 hV2 habs2 hndr
      refine ⟨q, m2, ?_, ?_, hwfq, hsrcq, ?_, ?_⟩
      · simp only [List.map_cons, duplicateFeatureTask, hiss, hsrc]
        simp only [if_true]
        exact hok
      · exact (memExtends_alloc m _).trans hext
      · intro d hd
        rcases List.mem_cons.1 hd with hd | hd
        · subst hd
          refine ⟨m.next, ?_, ?_, fun hc => Bool.noConfusion hc, fun _ => by omega⟩
          · rw [hframe (t, d) hd0rest, lookupF, addF]
            exact lookup_setAssoc_self _ _ _
          · have h1 : m2.lookupArr m.next = (m.alloc (m.lookupArr r0)).1.lookupArr m.next :=
              hext.2.1 m.next (by simp [Mem.alloc])
            rw [h1]
            have h2 : (m.alloc (m.lookupArr r0)).1.lookupArr m.next = m.lookupArr r0 :=
              lookupArr_alloc_self m _
            rw [h2]
            exact hV
        · exact hvals d hd
      · intro k hk
        have hk1 : k.2 ∉ rest := fun hmem => hk (List.mem_cons_of_mem _ hmem)
        have hk2 : k ≠ (t, d0) := by
          intro he
          exact hk (by rw [he]; exact List.mem_cons_self _ _)
        rw [hframe k hk1, lookupF, addF, lookup_setAssoc_ne _ _ hk2]
        rfl

/-- C4: a single `DuplicateFeatureTask` call duplicating one source into any
number of distinct absent destination names succeeds, and afterwards every
destination holds the source payload value: bound to the very same payload
reference as the source when shallow, and to an independent reference when
the deep flag is set. -/
theorem duplicate_many_destinations (t : FeatureType) (src : String) (deep : Bool)
    (dsts : List String) (p : EOPatch) (m : Mem) (r0 : Nat) (V : NDArray)
    (hwf : wfPatch p m)
    (hsrc : lookupF p (t, src) = some r0)
    (hV : m.lookupArr r0 = V)
    (habs : ∀ d ∈ dsts, lookupF p (t, d) = none)
    (hnd : dsts.Nodup) :
    runOk (duplicateFeatureTask (dsts.map (fun d => (t, src, d))) deep p m) = true ∧
    ∀ d ∈ dsts,
      valueAt (runPatch (duplicateFeatureTask (dsts.map (fun d => (t, src, d))) deep p m))
        (runMem (duplicateFeatureTask (dsts.map (fun d => (t, src, d))) deep p m)) (t, d) =
        some V ∧
      (deep = false →
        lookupF (runPatch (duplicateFeatureTask (dsts.map (fun d => (t, src, d))) deep p m))
          (t, d) = some r0) ∧
      (deep = true →
        lookupF (runPatch (duplicateFeatureTask (dsts.map (fun d => (t, src, d))) deep p m))
          (t, d) ≠ some r0) := by
  obtain ⟨q, m2, hok, hext, hwfq, hsrcq, hvals, hframe⟩ :=
    duplicate_many_aux hwf hsrc hV habs hnd
  rw [hok]
  refine ⟨rfl, ?_⟩
  intro d hd
  obtain ⟨rd, hl, hv, hsh, hdp⟩ := hvals d hd
  refine ⟨?_, ?_, ?_⟩
  · show valueAt q m2 (t, d) = some V
    simp only [valueAt, hl]
    exact congrArg some hv
  · intro hdeep
    show lookupF q (t, d) = some r0
    rw [hl, hsh hdeep]
  · intro hdeep hcon
    have hcon2 : rd = r0 := by
      have : lookupF q (t, d) = some r0 := hcon
      rw [hl] at this
      exact Option.some.inj this
    exact hdp hdeep hcon2

/-- C4 witness: duplicating "x" of `p1` into the three distinct names D3, D4,
D5 in one call succeeds, and D4 aliases the source payload. -/
theorem duplicate_many_destinations_wit :
    runOk (duplicateFeatureTask
      (["D3", "D4", "D5"].map (fun d => (FeatureType.data, "x", d))) false p1 m1) = true ∧
    valueAt (runPatch (duplicateFeatureTask
        (["D3", "D4", "D5"].map (fun d => (FeatureType.data, "x", d))) false p1 m1))
      (runMem (duplicateFeatureTask
        (["D3", "D4", "D5"].map (fun d => (FeatureType.data, "x", d))) false p1 m1))
      (FeatureType.data, "D4") = some arrA ∧
    lookupF (runPatch (duplicateFeatureTask
        (["D3", "D4", "D5"].map (fun d => (FeatureType.data, "x", d))) false p1 m1))
      (FeatureType.data, "D4") = some 0 :=
  ⟨(duplicate_many_destinations FeatureType.data "x" false ["D3", "D4", "D5"] p1 m1 0 arrA
      (by decide) (by decide) (by decide) (by decide) (by decide)).1,
   ((duplicate_many_destinations FeatureType.data "x" false ["D3", "D4", "D5"] p1 m1 0 arrA
      (by decide) (by decide) (by decide) (by decide) (by decide)).2 "D4" (by decide)).1,
   ((duplicate_many_destinations FeatureType.data "x" false ["D3", "D4", "D5"] p1 m1 0 arrA
      (by decide) (by decide) (by decide) (by decide) (by decide)).2 "D4" (by decide)).2.1
     rfl⟩

theorem lastDim_append_single (l : List Nat) (c : Nat) : lastDim (l ++ [c]) = c := by
  simp [lastDim]

theorem explode_aux {src : FKey} {mapping : List (FKey × BandSpec)} {p : EOPatch} {m : Mem}
    {r0 : Nat} {V : NDArray}
    (hwf : wfPatch p m) (hsrc : lookupF p src = some r0) (hV : m.lookupArr r0 = V)
    (hidx : ∀ e ∈ mapping, ∀ i ∈ BandSpec.normalize e.2, i < lastDim V.shape)
    (hnd : (mapping.map Prod.fst).Nodup)
    (hne : ∀ e ∈ mapping, e.1 ≠ src) :
    ∃ q m2, explodeBandsTask src mapping p m = .ok (q, m2) ∧
      MemExtends m m2 ∧ wfPatch q m2 ∧ lookupF q src = some r0 ∧
      (∀ e ∈ mapping, valueAt q m2 e.1 = some (sliceLast V (BandSpec.normalize e.2))) ∧
      (∀ k : FKey, k ∉ mapping.map Prod.fst → lookupF q k = lookupF p k) := by
  induction mapping generalizing p m with
  | nil =>
    exact ⟨p, m, rfl, MemExtends.refl m, hwf, hsrc, by simp, fun k _ => rfl⟩
  | cons e0 rest ih =>
    obtain ⟨dst, b⟩ := e0
    have hr0 : r0 < m.next := (hwf (src, r0) (lookupAssoc_mem hsrc)).1
    have hdne : dst ≠ src := hne (dst, b) (List.mem_cons_self _ _)
    have hd0rest : dst ∉ rest.map Prod.fst := (List.nodup_cons.1 hnd).1
    have hndr : (rest.map Prod.fst).Nodup := (List.nodup_cons.1 hnd).2
    have hextract : extractBandsTask src dst (BandSpec.normalize b) p m =
        .ok (addF p dst (m.alloc (sliceLast V (BandSpec.normalize b))).2,
             (m.alloc (sliceLast V (BandSpec.normalize b))).1) := by
      simp [extractBandsTask, hsrc, hV]
      intro i hi
      exact hidx (dst, b) (List.mem_cons_self _ _) i hi
    have hwf2 : wfPatch (addF p dst (m.alloc (sliceLast V (BandSpec.normalize b))).2)
        (m.alloc (sliceLast V (BandSpec.normalize b))).1 := wfPatch_addF_alloc hwf _ _
    have hsrc2 : lookupF (addF p dst (m.alloc (sliceLast V (BandSpec.normalize b))).2) src =
        some r0 := by
      rw [lookupF, addF]
      rw [lookup_setAssoc_ne _ _ (Ne.symm hdne)]
      exact hsrc
    have hV2 : (m.alloc (sliceLast V (BandSpec.normalize b))).1.lookupArr r0 = V := by
      rw [lookupArr_alloc_ne m _ (by omega)]
      exact hV
    have hidx2 : ∀ e ∈ rest, ∀ i ∈ BandSpec.normalize e.2, i < lastDim V.shape :=
      fun e he => hidx e (List.mem_cons_of_mem _ he)
    have hne2 : ∀ e ∈ rest, e.1 ≠ src := fun e he => hne e (List.mem_cons_of_mem _ he)
    obtain ⟨q, m2, hok, hext, hwfq, hsrcq, hvals, hframe⟩ :=
      ih hwf2 hsrc2 hV2 hidx2 hndr hne2
    refine ⟨q, m2, ?_, ?_, hwfq, hsrcq, ?_, ?_⟩
    · simp only [explodeBandsTask, hextract]
      exact hok
    · exact (memExtends_alloc m _).trans hext
    · intro e he
      rcases List.mem_cons.1 he with he | he
      · subst he
        have hl : lookupF q dst =
            some (m.alloc (sliceLast V (BandSpec.normalize b))).2 := by
          rw [hframe dst hd0rest, lookupF, addF]
          exact lookup_setAssoc_self _ _ _
        have hv : m2.lookupArr (m.alloc (sliceLast V (BandSpec.normalize b))).2 =
            sliceLast V (BandSpec.normalize b) := by
          rw [hext.2.1 _ (by simp [Mem.alloc])]
          exact lookupArr_alloc_self m _
        simp only [valueAt, hl]
        exact congrArg some hv
      · exact hvals e he
    · intro k hk
      have hk1 : k ∉ rest.map Prod.fst := fun hmem => hk (List.mem_cons_of_mem _ hmem)
      have hk2 : k ≠ dst := by
        intro he
        exact hk (by rw [he]; exact List.mem_cons_self _ _)
      rw [hframe k hk1, lookupF, addF, lookup_setAssoc_ne _ _ hk2]
      rfl

/-- C6: exploding one source feature through a mapping from destination keys
to channel selections makes every destination of the mapping present in the
result, bound to the source payload sliced by its normalized index list on
the last axis; a bare integer selection is normalized to a one-element list,
and an empty index list yields a present zero-width feature rather than a
missing key or an error. -/
theorem explode_bands_targets (src : FKey) (mapping : List (FKey × BandSpec))
    (p : EOPatch) (m : Mem) (r0 : Nat) (V : NDArray)
    (hwf : wfPatch p m) (hsrc : lookupF p src = some r0) (hV : m.lookupArr r0 = V)
    (hidx : ∀ e ∈ mapping, ∀ i ∈ BandSpec.normalize e.2, i < lastDim V.shape)
    (hnd : (mapping.map Prod.fst).Nodup)
    (hne : ∀ e ∈ mapping, e.1 ≠ src) :
    runOk (explodeBandsTask src mapping p m) = true ∧
    (∀ e ∈ mapping,
      valueAt (runPatch (explodeBandsTask src mapping p m))
        (runMem (explodeBandsTask src mapping p m)) e.1 =
        some (sliceLast V (BandSpec.normalize e.2)) ∧
      (BandSpec.normalize e.2 = [] →
        (sliceLast V (BandSpec.normalize e.2)).shape = V.shape.dropLast ++ [0] ∧
        lastDim (sliceLast V (BandSpec.normalize e.2)).shape = 0)) ∧
    (∀ i : Nat, BandSpec.normalize (BandSpec.one i) = [i]) := by
  obtain ⟨q, m2, hok, hext, hwfq, hsrcq, hvals, hframe⟩ :=
    explode_aux hwf hsrc hV hidx hnd hne
  rw [hok]
  refine ⟨rfl, ?_, fun i => rfl⟩
  intro e he
  refine ⟨hvals e he, ?_⟩
  intro hempty
  rw [hempty]
  constructor
  · simp [sliceLast]
  · simp only [sliceLast]
    exact lastDim_append_single _ _

/-- C6 witness: exploding the fixture DATA feature into a bare-integer
selection, a two-channel selection, and an empty selection; the bare integer
destination holds the one-channel slice and the empty selection yields a
zero-width feature. -/
theorem explode_bands_targets_wit :
    runOk (explodeBandsTask (FeatureType.data, "bands")
      [((FeatureType.data, "B01"), BandSpec.one 0),
       ((FeatureType.data, "B12"), BandSpec.many [0, 1]),
       ((FeatureType.data, "E"), BandSpec.many [])] p0 m0) = true ∧
    valueAt (runPatch (explodeBandsTask (FeatureType.data, "bands")
        [((FeatureType.data, "B01"), BandSpec.one 0),
         ((FeatureType.data, "B12"), BandSpec.many [0, 1]),
         ((FeatureType.data, "E"), BandSpec.many [])] p0 m0))
      (runMem (explodeBandsTask (FeatureType.data, "bands")
        [((FeatureType.data, "B01"), BandSpec.one 0),
         ((FeatureType.data, "B12"), BandSpec.many [0, 1]),
         ((FeatureType.data, "E"), BandSpec.many [])] p0 m0))
      (FeatureType.data, "B01") = some (sliceLast arrA [0]) ∧
    lastDim (sliceLast arrA (BandSpec.normalize (BandSpec.many []))).shape = 0 :=
  ⟨(explode_bands_targets (FeatureType.data, "bands")
      [((FeatureType.data, "B01"), BandSpec.one 0),
       ((FeatureType.data, "B12"), BandSpec.many [0, 1]),
       ((FeatureType.data, "E"), BandSpec.many [])] p0 m0 0 arrA
      (by decide) (by decide) (by decide) (by decide) (by decide) (by decide)).1,
   ((explode_bands_targets (FeatureType.data, "bands")
      [((FeatureType.data, "B01"), BandSpec.one 0),
       ((FeatureType.data, "B12"), BandSpec.many [0, 1]),
       ((FeatureType.data, "E"), BandSpec.many [])] p0 m0 0 arrA
      (by decide) (by decide) (by decide) (by decide) (by decide) (by decide)).2.1
      ((FeatureType.data, "B01"), BandSpec.one 0) (by decide)).1,
   (((explode_bands_targets (FeatureType.data, "bands")
      [((FeatureType.data, "B01"), BandSpec.one 0),
       ((FeatureType.data, "B12"), BandSpec.many [0, 1]),
       ((FeatureType.data, "E"), BandSpec.many [])] p0 m0 0 arrA
      (by decide) (by decide) (by decide) (by decide) (by decide) (by decide)).2.1
      ((FeatureType.data, "E"), BandSpec.many []) (by decide)).2 rfl).2⟩

